import Mathlib

/-!
Shallow embedding of the github-metrics release analyzer
(src/github-metrics.py) and proofs about its pagination, aggregation,
scanning and sorting logic.

JSON records are modelled as structures with Option fields: a `none` field
stands for an absent key, mirroring the dict.get defaulting in the Python
source. Download counts and sizes are Lean Int, matching Python's unbounded
integers. The HTTP layer is modelled as a function from page number to
either an error string (a transport-level failure or non-2xx response, the
RequestException branch) or the decoded JSON list for that page; the fetch
loop is given explicit fuel because the source's while-True loop has no
syntactic bound, and every theorem assumes only that the fuel covers the
page on which the loop actually stops.
-/

/-- An asset record: a downloadable file attached to a release.
Fields are Option because the source reads them with dict.get defaults. -/
structure Asset where
  name : Option String
  download_count : Option Int
  size : Option Int
  content_type : Option String
deriving DecidableEq

/-- A release record, with optional display name and tag and an optional
assets list (the source reads it as release.get with default empty list). -/
structure Release where
  name : Option String
  tag_name : Option String
  assets : Option (List Asset)
deriving DecidableEq

/-- One row of the asset_details list built by analyze_downloads. -/
structure AssetDetail where
  release_name : String
  asset_name : String
  downloads : Int
  size : Int
  content_type : String
deriving DecidableEq

/-- The dictionary returned by analyze_downloads. -/
structure ReleaseAnalysis where
  total_downloads : Int
  total_assets : Nat
  releases_with_downloads : Nat
  total_releases : Nat
  asset_details : List AssetDetail
deriving DecidableEq

/-- The total_stats dictionary accumulated by run_analysis. -/
structure OverallStats where
  total_downloads : Int
  total_assets : Nat
  releases_with_downloads : Nat
  total_releases : Nat
  repos_with_releases : Nat
deriving DecidableEq

/-- release.get with default empty list, as in the source's asset loops. -/
def releaseAssets (release : Release) : List Asset :=
  release.assets.getD []

/-- asset.get of the download_count key with default 0. -/
def assetDownloadCount (asset : Asset) : Int :=
  asset.download_count.getD 0

/-- The release display name of the source, line 91:
release.get of name, defaulting to release.get of tag_name,
defaulting to the literal Unknown. -/
def releaseDisplayName (release : Release) : String :=
  match release.name with
  | some n => n
  | none =>
    match release.tag_name with
    | some t => t
    | none => "Unknown"

/-- The asset_details row appended for one asset of one release
(source lines 89 to 99). -/
def assetDetailOf (release : Release) (asset : Asset) : AssetDetail :=
  { release_name := releaseDisplayName release
  , asset_name := asset.name.getD "Unknown"
  , downloads := assetDownloadCount asset
  , size := asset.size.getD 0
  , content_type := asset.content_type.getD "Unknown" }

/-- The per-release sum of asset download counts (the release_downloads
local of analyze_downloads). -/
def releaseDownloads (release : Release) : Int :=
  ((releaseAssets release).map assetDownloadCount).sum

/-- State threaded through the inner asset loop of analyze_downloads. -/
structure InnerState where
  release_downloads : Int
  total_downloads : Int
  asset_details : List AssetDetail

/-- One iteration of the inner asset loop (source lines 85 to 99). -/
def assetStep (release : Release) (s : InnerState) (asset : Asset) : InnerState :=
  let download_count := assetDownloadCount asset
  { release_downloads := s.release_downloads + download_count
  , total_downloads := s.total_downloads + download_count
  , asset_details := s.asset_details ++ [assetDetailOf release asset] }

/-- State threaded through the outer release loop of analyze_downloads. -/
structure AnalyzeState where
  total_downloads : Int
  total_assets : Nat
  releases_with_downloads : Nat
  asset_details : List AssetDetail

/-- One iteration of the outer release loop (source lines 82 to 102). -/
def releaseStep (s : AnalyzeState) (release : Release) : AnalyzeState :=
  let release_assets := (releaseAssets release).length
  let inner := (releaseAssets release).foldl (assetStep release)
      ⟨0, s.total_downloads, s.asset_details⟩
  { total_downloads := inner.total_downloads
  , total_assets := s.total_assets + release_assets
  , releases_with_downloads :=
      if inner.release_downloads > 0 then s.releases_with_downloads + 1
      else s.releases_with_downloads
  , asset_details := inner.asset_details }

/-- analyze_downloads (source lines 77 to 109): fold the release loop from
all-zero accumulators and package the five result fields. -/
def analyze_downloads (releases : List Release) : ReleaseAnalysis :=
  let s := releases.foldl releaseStep ⟨0, 0, 0, []⟩
  { total_downloads := s.total_downloads
  , total_assets := s.total_assets
  , releases_with_downloads := s.releases_with_downloads
  , total_releases := releases.length
  , asset_details := s.asset_details }

/-- Result of one paginated fetch: the accumulated items, how many page
requests were issued, and the error messages printed to the console. -/
structure FetchResult (α : Type) where
  items : List α
  requests : Nat
  log : List String
deriving DecidableEq

/-- The while-True pagination loop of get_repo_releases (source lines 59 to
74), with the HTTP layer abstracted as a function from page number to either
an error (RequestException: transport failure or raise_for_status) or the
decoded JSON list. Each iteration issues one request; an error appends the
printed message and stops; an empty page stops; a non-empty page is appended
to the accumulator and the page number is incremented. Fuel bounds the
number of iterations so the function is total. -/
def fetchPagesFrom (repo_name : String) (server : Nat → Except String (List α)) :
    Nat → Nat → List α → Nat → List String → FetchResult α
  | 0, _, acc, reqs, log => ⟨acc, reqs, log⟩
  | fuel + 1, page, acc, reqs, log =>
    match server page with
    | Except.error e =>
        ⟨acc, reqs + 1,
         log ++ ["Error fetching releases for " ++ repo_name ++ ": " ++ e]⟩
    | Except.ok page_releases =>
        if page_releases.isEmpty then ⟨acc, reqs + 1, log⟩
        else
          fetchPagesFrom repo_name server fuel (page + 1)
            (acc ++ page_releases) (reqs + 1) log

/-- get_repo_releases (source lines 56 to 75): run the pagination loop
starting at page 1 with empty accumulator, zero requests and empty log. -/
def get_repo_releases (repo_name : String)
    (server : Nat → Except String (List Release)) (fuel : Nat) :
    FetchResult Release :=
  fetchPagesFrom repo_name server fuel 1 [] 0 []

/-- The list a successful page request returns (empty for an error page);
used to state what the accumulator holds. -/
def pageItems (server : Nat → Except String (List α)) (i : Nat) : List α :=
  match server i with
  | Except.ok l => l
  | Except.error _ => []

/-- Concatenation of the contents of pages 1 through k. -/
def pagesConcat (server : Nat → Except String (List α)) (k : Nat) : List α :=
  ((List.range k).map (fun j => pageItems server (j + 1))).flatten

/-- One iteration of the repository loop of run_analysis (source lines 181
to 195), with the release fetch abstracted as a function from repository
name to the fetched release list: an empty fetch leaves the accumulator
unchanged, a non-empty fetch folds the analysis fields into the running
totals and appends the pair to the result list. -/
def scanStep (fetch : String → List Release)
    (acc : OverallStats × List (String × ReleaseAnalysis)) (repo_name : String) :
    OverallStats × List (String × ReleaseAnalysis) :=
  let releases := fetch repo_name
  if releases.isEmpty then acc
  else
    let analysis := analyze_downloads releases
    ({ total_downloads := acc.1.total_downloads + analysis.total_downloads
     , total_assets := acc.1.total_assets + analysis.total_assets
     , releases_with_downloads :=
         acc.1.releases_with_downloads + analysis.releases_with_downloads
     , total_releases := acc.1.total_releases + analysis.total_releases
     , repos_with_releases := acc.1.repos_with_releases + 1 },
     acc.2 ++ [(repo_name, analysis)])

/-- The scanning fold of run_analysis (source lines 167 to 195): all-zero
totals and empty result list, folded over the repository names in order. -/
def run_analysis_scan (fetch : String → List Release) (repos : List String) :
    OverallStats × List (String × ReleaseAnalysis) :=
  repos.foldl (scanStep fetch) (⟨0, 0, 0, 0, 0⟩, [])

/-- The repositories the scan keeps: those whose fetch is non-empty, each
paired with the analysis of its releases, in scan order. -/
def keptRepos (fetch : String → List Release) (repos : List String) :
    List (String × ReleaseAnalysis) :=
  (repos.filter (fun repo_name => !(fetch repo_name).isEmpty)).map
    (fun repo_name => (repo_name, analyze_downloads (fetch repo_name)))

/-- Stable descending insertion by total_downloads: the new element goes in
front of the first element whose total_downloads does not exceed it, so an
element placed earlier in the original order stays in front of later equal
elements. -/
def insertByDownloadsDesc (x : String × ReleaseAnalysis) :
    List (String × ReleaseAnalysis) → List (String × ReleaseAnalysis)
  | [] => [x]
  | y :: ys =>
    if x.2.total_downloads ≥ y.2.total_downloads then x :: y :: ys
    else y :: insertByDownloadsDesc x ys

/-- Model of the source's repos_with_releases.sort with key total_downloads
and reverse True (source lines 224 to 226): Python's list.sort is stable,
and the stable descending-by-key sort of a list is unique, so stable
insertion sort computes the same list. -/
def sortByDownloadsDesc (l : List (String × ReleaseAnalysis)) :
    List (String × ReleaseAnalysis) :=
  l.foldr insertByDownloadsDesc []

/-- The per-repository list in the order run_analysis hands it to
display_results: the scan result list re-sorted by total_downloads
descending. -/
def displayedRepos (fetch : String → List Release) (repos : List String) :
    List (String × ReleaseAnalysis) :=
  sortByDownloadsDesc (run_analysis_scan fetch repos).2

/-- A release record with every key absent, for concrete test pages. -/
def blankRelease : Release := ⟨none, none, none⟩

/-- A concrete server serving pages of sizes 100, 100 and 37, then empty
pages: the pagination scenario of the specification. -/
def pagedStub (page : Nat) : Except String (List Release) :=
  if page = 1 then Except.ok (List.replicate 100 blankRelease)
  else if page = 2 then Except.ok (List.replicate 100 blankRelease)
  else Except.ok (if page = 3 then List.replicate 37 blankRelease else [])

/-- A concrete server whose first page succeeds with 100 items and whose
every later page fails: the transport-error scenario of the
specification. -/
def errorStub (page : Nat) : Except String (List Release) :=
  if page = 1 then Except.ok (List.replicate 100 blankRelease)
  else Except.error "boom"

/-- The inner asset loop of analyze_downloads, characterised: it adds the
sum of the asset download counts to both running totals and appends one
detail row per asset, in order. -/
theorem assetStep_foldl (release : Release) (assets : List Asset) :
    ∀ s : InnerState,
      assets.foldl (assetStep release) s =
        ⟨s.release_downloads + (assets.map assetDownloadCount).sum,
         s.total_downloads + (assets.map assetDownloadCount).sum,
         s.asset_details ++ assets.map (assetDetailOf release)⟩ := by
  induction assets with
  | nil => intro s; cases s; simp
  | cons a as ih =>
    intro s
    simp only [List.foldl_cons, ih, assetStep, List.map_cons, List.sum_cons]
    cases s
    simp [Int.add_assoc]

/-- The outer release loop of analyze_downloads, characterised: the running
totals pick up the per-release download sums, asset counts, positive-sum
release count and detail rows of the releases processed. -/
theorem releaseStep_foldl (releases : List Release) :
    ∀ s : AnalyzeState,
      releases.foldl releaseStep s =
        ⟨s.total_downloads + (releases.map releaseDownloads).sum,
         s.total_assets + (releases.map (fun r => (releaseAssets r).length)).sum,
         s.releases_with_downloads +
           releases.countP (fun r => decide (0 < releaseDownloads r)),
         s.asset_details ++
           (releases.map (fun r => (releaseAssets r).map (assetDetailOf r))).flatten⟩ := by
  induction releases with
  | nil => intro s; cases s; simp
  | cons r rs ih =>
    intro s
    simp only [List.foldl_cons, ih, releaseStep, assetStep_foldl,
      List.map_cons, List.sum_cons, List.countP_cons, List.flatten_cons]
    cases s with
    | mk td ta rwd ds =>
      simp only [AnalyzeState.mk.injEq]
      refine ⟨by simp [releaseDownloads, Int.add_assoc], by omega, ?_, by simp⟩
      simp only [releaseDownloads, gt_iff_lt, Int.zero_add, zero_add]
      by_cases h : 0 < ((releaseAssets r).map assetDownloadCount).sum
      · simp [h]
        omega
      · simp [h]

/-- analyze_downloads, characterised field by field. -/
theorem analyze_downloads_eq (releases : List Release) :
    analyze_downloads releases =
      ⟨(releases.map releaseDownloads).sum,
       (releases.map (fun r => (releaseAssets r).length)).sum,
       releases.countP (fun r => decide (0 < releaseDownloads r)),
       releases.length,
       (releases.map (fun r => (releaseAssets r).map (assetDetailOf r))).flatten⟩ := by
  unfold analyze_downloads
  rw [releaseStep_foldl]
  simp

/-- The pagination loop run from page p, when pages p through p+k-1 are
non-empty successes and page p+k is an empty success: it appends the k pages
in order, issues k+1 requests and logs nothing. -/
theorem fetchPagesFrom_ok_run (repo_name : String)
    (server : Nat → Except String (List α)) :
    ∀ (k p : Nat) (acc : List α) (reqs : Nat) (log : List String) (fuel : Nat),
      (∀ i, p ≤ i → i < p + k → ∃ l, server i = Except.ok l ∧ l ≠ []) →
      server (p + k) = Except.ok [] →
      k + 1 ≤ fuel →
      fetchPagesFrom repo_name server fuel p acc reqs log =
        ⟨acc ++ ((List.range k).map (fun j => pageItems server (p + j))).flatten,
         reqs + (k + 1), log⟩ := by
  intro k
  induction k with
  | zero =>
    intro p acc reqs log fuel _ hempty hfuel
    obtain ⟨f, rfl⟩ : ∃ f, fuel = f + 1 := ⟨fuel - 1, by omega⟩
    rw [Nat.add_zero] at hempty
    simp [fetchPagesFrom, hempty]
  | succ k ih =>
    intro p acc reqs log fuel hok hempty hfuel
    obtain ⟨f, rfl⟩ : ∃ f, fuel = f + 1 := ⟨fuel - 1, by omega⟩
    obtain ⟨l, hl, hlne⟩ := hok p (Nat.le_refl p) (by omega)
    have hne : l.isEmpty = false := by
      cases l with
      | nil => exact absurd rfl hlne
      | cons a as => rfl
    have harg : ∀ i, p + 1 ≤ i → i < p + 1 + k →
        ∃ l, server i = Except.ok l ∧ l ≠ [] := by
      intro i h1 h2
      exact hok i (by omega) (by omega)
    have hemp : server (p + 1 + k) = Except.ok [] := by
      have harith : p + 1 + k = p + (k + 1) := by omega
      rw [harith]
      exact hempty
    have hstep : fetchPagesFrom repo_name server (f + 1) p acc reqs log =
        fetchPagesFrom repo_name server f (p + 1) (acc ++ l) (reqs + 1) log := by
      simp [fetchPagesFrom, hl, hne]
    rw [hstep, ih (p + 1) (acc ++ l) (reqs + 1) log f harg hemp (by omega)]
    have hpage : pageItems server p = l := by simp [pageItems, hl]
    have hfun : ((fun j => pageItems server (p + j)) ∘ Nat.succ) =
        (fun j => pageItems server (p + 1 + j)) := by
      funext j
      simp only [Function.comp]
      congr 1
      omega
    simp only [FetchResult.mk.injEq]
    refine ⟨?_, by omega, trivial⟩
    simp [List.range_succ_eq_map, List.map_map, hfun, hpage]

/-- The pagination loop run from page p, when pages p through p+k-1 are
non-empty successes and the request for page p+k fails: it keeps the k pages
already fetched, issues k+1 requests and logs exactly the printed error
message. -/
theorem fetchPagesFrom_err_run (repo_name : String)
    (server : Nat → Except String (List α)) (e : String) :
    ∀ (k p : Nat) (acc : List α) (reqs : Nat) (log : List String) (fuel : Nat),
      (∀ i, p ≤ i → i < p + k → ∃ l, server i = Except.ok l ∧ l ≠ []) →
      server (p + k) = Except.error e →
      k + 1 ≤ fuel →
      fetchPagesFrom repo_name server fuel p acc reqs log =
        ⟨acc ++ ((List.range k).map (fun j => pageItems server (p + j))).flatten,
         reqs + (k + 1),
         log ++ ["Error fetching releases for " ++ repo_name ++ ": " ++ e]⟩ := by
  intro k
  induction k with
  | zero =>
    intro p acc reqs log fuel _ herr hfuel
    obtain ⟨f, rfl⟩ : ∃ f, fuel = f + 1 := ⟨fuel - 1, by omega⟩
    rw [Nat.add_zero] at herr
    simp [fetchPagesFrom, herr]
  | succ k ih =>
    intro p acc reqs log fuel hok herr hfuel
    obtain ⟨f, rfl⟩ : ∃ f, fuel = f + 1 := ⟨fuel - 1, by omega⟩
    obtain ⟨l, hl, hlne⟩ := hok p (Nat.le_refl p) (by omega)
    have hne : l.isEmpty = false := by
      cases l with
      | nil => exact absurd rfl hlne
      | cons a as => rfl
    have harg : ∀ i, p + 1 ≤ i → i < p + 1 + k →
        ∃ l, server i = Except.ok l ∧ l ≠ [] := by
      intro i h1 h2
      exact hok i (by omega) (by omega)
    have hemp : server (p + 1 + k) = Except.error e := by
      have harith : p + 1 + k = p + (k + 1) := by omega
      rw [harith]
      exact herr
    have hstep : fetchPagesFrom repo_name server (f + 1) p acc reqs log =
        fetchPagesFrom repo_name server f (p + 1) (acc ++ l) (reqs + 1) log := by
      simp [fetchPagesFrom, hl, hne]
    rw [hstep, ih (p + 1) (acc ++ l) (reqs + 1) log f harg hemp (by omega)]
    have hpage : pageItems server p = l := by simp [pageItems, hl]
    have hfun : ((fun j => pageItems server (p + j)) ∘ Nat.succ) =
        (fun j => pageItems server (p + 1 + j)) := by
      funext j
      simp only [Function.comp]
      congr 1
      omega
    simp only [FetchResult.mk.injEq]
    refine ⟨?_, by omega, trivial⟩
    simp [List.range_succ_eq_map, List.map_map, hfun, hpage]

/-- The repository loop of run_analysis, characterised: the result list is
the kept repositories in scan order, repos_with_releases counts them, and
every numeric total is the sum of the corresponding analysis field over the
kept repositories. -/
theorem scanStep_foldl (fetch : String → List Release) (repos : List String) :
    ∀ s : OverallStats × List (String × ReleaseAnalysis),
      repos.foldl (scanStep fetch) s =
        (⟨s.1.total_downloads +
            ((keptRepos fetch repos).map (fun p => p.2.total_downloads)).sum,
          s.1.total_assets +
            ((keptRepos fetch repos).map (fun p => p.2.total_assets)).sum,
          s.1.releases_with_downloads +
            ((keptRepos fetch repos).map
              (fun p => p.2.releases_with_downloads)).sum,
          s.1.total_releases +
            ((keptRepos fetch repos).map (fun p => p.2.total_releases)).sum,
          s.1.repos_with_releases + (keptRepos fetch repos).length⟩,
         s.2 ++ keptRepos fetch repos) := by
  induction repos with
  | nil => intro s; simp [keptRepos]
  | cons r rs ih =>
    intro s
    cases hf : (fetch r).isEmpty with
    | true =>
      have hk : keptRepos fetch (r :: rs) = keptRepos fetch rs := by
        simp [keptRepos, List.filter_cons, hf]
      have hs : scanStep fetch s r = s := by simp [scanStep, hf]
      rw [List.foldl_cons, hs, ih s, hk]
    | false =>
      have hk : keptRepos fetch (r :: rs) =
          (r, analyze_downloads (fetch r)) :: keptRepos fetch rs := by
        simp [keptRepos, List.filter_cons, hf]
      have hs : scanStep fetch s r =
          ({ total_downloads :=
               s.1.total_downloads + (analyze_downloads (fetch r)).total_downloads
           , total_assets :=
               s.1.total_assets + (analyze_downloads (fetch r)).total_assets
           , releases_with_downloads :=
               s.1.releases_with_downloads +
                 (analyze_downloads (fetch r)).releases_with_downloads
           , total_releases :=
               s.1.total_releases + (analyze_downloads (fetch r)).total_releases
           , repos_with_releases := s.1.repos_with_releases + 1 },
           s.2 ++ [(r, analyze_downloads (fetch r))]) := by
        simp [scanStep, hf]
      rw [List.foldl_cons, hs, ih _, hk]
      simp only [List.map_cons, List.sum_cons, List.length_cons, Prod.mk.injEq,
        OverallStats.mk.injEq, List.append_assoc, List.singleton_append]
      refine ⟨⟨by omega, by omega, by omega, by omega, by omega⟩, trivial⟩

/-- Inserting into a list permutes consing onto it. -/
theorem insertByDownloadsDesc_perm (x : String × ReleaseAnalysis)
    (l : List (String × ReleaseAnalysis)) :
    List.Perm (insertByDownloadsDesc x l) (x :: l) := by
  induction l with
  | nil => exact List.Perm.refl _
  | cons y ys ih =>
    by_cases h : x.2.total_downloads ≥ y.2.total_downloads
    · rw [insertByDownloadsDesc, if_pos h]
    · rw [insertByDownloadsDesc, if_neg h]
      exact (ih.cons y).trans (List.Perm.swap x y ys)

/-- Inserting into a descending-sorted list keeps it descending-sorted. -/
theorem insertByDownloadsDesc_sorted (x : String × ReleaseAnalysis)
    (l : List (String × ReleaseAnalysis))
    (hl : l.Pairwise (fun a b => b.2.total_downloads ≤ a.2.total_downloads)) :
    (insertByDownloadsDesc x l).Pairwise
      (fun a b => b.2.total_downloads ≤ a.2.total_downloads) := by
  induction l with
  | nil => simp [insertByDownloadsDesc]
  | cons y ys ih =>
    rcases List.pairwise_cons.mp hl with ⟨hy, hys⟩
    by_cases h : x.2.total_downloads ≥ y.2.total_downloads
    · rw [insertByDownloadsDesc, if_pos h]
      refine List.pairwise_cons.mpr ⟨?_, hl⟩
      intro z hz
      rcases List.mem_cons.mp hz with rfl | hz
      · exact h
      · exact le_trans (hy z hz) h
    · rw [insertByDownloadsDesc, if_neg h]
      refine List.pairwise_cons.mpr ⟨?_, ih hys⟩
      intro z hz
      have hz2 : z = x ∨ z ∈ ys := by
        have hmem := (insertByDownloadsDesc_perm x ys).mem_iff.mp hz
        simpa using hmem
      rcases hz2 with rfl | hz2
      · exact le_of_lt (lt_of_not_ge h)
      · exact hy z hz2

/-- Inserting commutes with filtering on a fixed total_downloads value: the
inserted element lands in front of the equal-valued block, so ties keep
their original relative order. -/
theorem insertByDownloadsDesc_filter (x : String × ReleaseAnalysis) (d : Int)
    (l : List (String × ReleaseAnalysis)) :
    (insertByDownloadsDesc x l).filter
        (fun p => decide (p.2.total_downloads = d)) =
      if x.2.total_downloads = d then
        x :: l.filter (fun p => decide (p.2.total_downloads = d))
      else l.filter (fun p => decide (p.2.total_downloads = d)) := by
  induction l with
  | nil =>
    by_cases hx : x.2.total_downloads = d
    · simp [insertByDownloadsDesc, List.filter_cons, hx]
    · simp [insertByDownloadsDesc, List.filter_cons, hx]
  | cons y ys ih =>
    by_cases h : x.2.total_downloads ≥ y.2.total_downloads
    · rw [insertByDownloadsDesc, if_pos h]
      by_cases hx : x.2.total_downloads = d
      · simp [List.filter_cons, hx]
      · simp [List.filter_cons, hx]
    · rw [insertByDownloadsDesc, if_neg h]
      by_cases hx : x.2.total_downloads = d
      · have hy : ¬ y.2.total_downloads = d := by
          intro hyd
          exact h (by rw [hx, hyd])
        simp [List.filter_cons, hy, ih, hx]
      · simp [List.filter_cons, ih, hx]

/-- The sort is a permutation of its input. -/
theorem sortByDownloadsDesc_perm (l : List (String × ReleaseAnalysis)) :
    List.Perm (sortByDownloadsDesc l) l := by
  induction l with
  | nil => exact List.Perm.refl _
  | cons x xs ih =>
    have h1 := insertByDownloadsDesc_perm x (sortByDownloadsDesc xs)
    exact h1.trans (ih.cons x)

/-- The sort output is descending in total_downloads. -/
theorem sortByDownloadsDesc_sorted (l : List (String × ReleaseAnalysis)) :
    (sortByDownloadsDesc l).Pairwise
      (fun a b => b.2.total_downloads ≤ a.2.total_downloads) := by
  induction l with
  | nil => simp [sortByDownloadsDesc]
  | cons x xs ih => exact insertByDownloadsDesc_sorted x _ ih

/-- Stability of the sort: restricting to any one total_downloads value
gives the same subsequence as in the input. -/
theorem sortByDownloadsDesc_filter (l : List (String × ReleaseAnalysis))
    (d : Int) :
    (sortByDownloadsDesc l).filter
        (fun p => decide (p.2.total_downloads = d)) =
      l.filter (fun p => decide (p.2.total_downloads = d)) := by
  induction l with
  | nil => rfl
  | cons x xs ih =>
    show (insertByDownloadsDesc x (sortByDownloadsDesc xs)).filter
        (fun p => decide (p.2.total_downloads = d)) = _
    rw [insertByDownloadsDesc_filter, ih]
    by_cases hx : x.2.total_downloads = d
    · simp [List.filter_cons, hx]
    · simp [List.filter_cons, hx]

/-- C1: the paginated fetch starts at page 1, appends each non-empty
returned page to the accumulator, increments the page number, and stops
exactly when a requested page returns an empty list, having issued one
request per visited page: for k non-empty pages followed by an empty one it
returns their concatenation in order after exactly k+1 requests (and logs
nothing). get_user_repos runs the identical loop over the repository
listing endpoint. -/
theorem get_repo_releases_pagination (repo_name : String)
    (server : Nat → Except String (List Release)) (k fuel : Nat)
    (hok : ∀ i, 1 ≤ i → i ≤ k → ∃ l, server i = Except.ok l ∧ l ≠ [])
    (hempty : server (k + 1) = Except.ok [])
    (hfuel : k + 1 ≤ fuel) :
    get_repo_releases repo_name server fuel =
      ⟨pagesConcat server k, k + 1, []⟩ := by
  unfold get_repo_releases
  have hok2 : ∀ i, 1 ≤ i → i < 1 + k → ∃ l, server i = Except.ok l ∧ l ≠ [] := by
    intro i h1 h2
    exact hok i h1 (by omega)
  have hemp : server (1 + k) = Except.ok [] := by
    rw [Nat.add_comm]
    exact hempty
  rw [fetchPagesFrom_ok_run repo_name server k 1 [] 0 [] fuel hok2 hemp hfuel]
  have hfun : (fun j => pageItems server (1 + j)) =
      (fun j => pageItems server (j + 1)) := by
    funext j
    congr 1
    omega
  simp [pagesConcat, hfun]

set_option maxRecDepth 4000 in
/-- C1 witness: with pages of sizes 100, 100 and 37 followed by an empty
page, the accumulator has length 237 and exactly 4 page requests are
issued. -/
theorem get_repo_releases_pagination_witness :
    (get_repo_releases "demo" pagedStub 10).items.length = 237 ∧
    (get_repo_releases "demo" pagedStub 10).requests = 4 := by
  have hok : ∀ i, 1 ≤ i → i ≤ 3 →
      ∃ l, pagedStub i = Except.ok l ∧ l ≠ [] := by
    intro i h1 h2
    interval_cases i
    · exact ⟨List.replicate 100 blankRelease, rfl, by simp⟩
    · exact ⟨List.replicate 100 blankRelease, rfl, by simp⟩
    · exact ⟨List.replicate 37 blankRelease, rfl, by simp⟩
  have h := get_repo_releases_pagination "demo" pagedStub 3 10 hok rfl (by omega)
  rw [h]
  exact ⟨by decide, rfl⟩

/-- C2: when pages 1 through k succeed non-empty and the request for page
k+1 fails, the loop stops after that failing request, keeps and returns the
items accumulated from the earlier pages, logs exactly the error message,
and returns normally (the embedding is a total function: no exception
reaches the caller). -/
theorem get_repo_releases_error_partial (repo_name : String)
    (server : Nat → Except String (List Release)) (k fuel : Nat) (e : String)
    (hok : ∀ i, 1 ≤ i → i ≤ k → ∃ l, server i = Except.ok l ∧ l ≠ [])
    (herr : server (k + 1) = Except.error e)
    (hfuel : k + 1 ≤ fuel) :
    get_repo_releases repo_name server fuel =
      ⟨pagesConcat server k, k + 1,
       ["Error fetching releases for " ++ repo_name ++ ": " ++ e]⟩ := by
  unfold get_repo_releases
  have hok2 : ∀ i, 1 ≤ i → i < 1 + k → ∃ l, server i = Except.ok l ∧ l ≠ [] := by
    intro i h1 h2
    exact hok i h1 (by omega)
  have herr2 : server (1 + k) = Except.error e := by
    rw [Nat.add_comm]
    exact herr
  rw [fetchPagesFrom_err_run repo_name server e k 1 [] 0 [] fuel hok2 herr2 hfuel]
  have hfun : (fun j => pageItems server (1 + j)) =
      (fun j => pageItems server (j + 1)) := by
    funext j
    congr 1
    omega
  simp [pagesConcat, hfun]

set_option maxRecDepth 4000 in
/-- C2 witness: the second page request fails, so the accumulator holds
exactly the 100 items of the first page, two requests were issued, and the
error message was logged. -/
theorem get_repo_releases_error_partial_witness :
    (get_repo_releases "demo" errorStub 10).items.length = 100 ∧
    (get_repo_releases "demo" errorStub 10).requests = 2 ∧
    (get_repo_releases "demo" errorStub 10).log =
      ["Error fetching releases for demo: boom"] := by
  have hok : ∀ i, 1 ≤ i → i ≤ 1 →
      ∃ l, errorStub i = Except.ok l ∧ l ≠ [] := by
    intro i h1 h2
    interval_cases i
    exact ⟨List.replicate 100 blankRelease, rfl, by simp⟩
  have h := get_repo_releases_error_partial "demo" errorStub 1 10 "boom" hok
    rfl (by omega)
  rw [h]
  exact ⟨by decide, rfl, by decide⟩

/-- C3: total_downloads is additive at both levels: analyze_downloads
returns the sum over releases of their per-release summed asset download
counts, and the scan's overall total_downloads equals the sum of
total_downloads over the per-repository analyses that were folded in. -/
theorem total_downloads_additive :
    (∀ releases : List Release,
      (analyze_downloads releases).total_downloads =
        (releases.map releaseDownloads).sum) ∧
    (∀ (fetch : String → List Release) (repos : List String),
      (run_analysis_scan fetch repos).1.total_downloads =
        ((run_analysis_scan fetch repos).2.map
          (fun p => p.2.total_downloads)).sum) := by
  constructor
  · intro releases
    rw [analyze_downloads_eq]
  · intro fetch repos
    unfold run_analysis_scan
    rw [scanStep_foldl]
    simp

/-- C4: releases_with_downloads counts exactly the releases whose summed
asset download counts are strictly positive; a release whose sum is zero is
not counted, assets or not. -/
theorem releases_with_downloads_counts_positive :
    ∀ releases : List Release,
      (analyze_downloads releases).releases_with_downloads =
        releases.countP (fun r => decide (0 < releaseDownloads r)) := by
  intro releases
  rw [analyze_downloads_eq]

/-- C5: total_assets equals the sum of the lengths of the per-release asset
lists, independently of download counts, and asset_details has exactly
total_assets rows. -/
theorem total_assets_invariants :
    ∀ releases : List Release,
      (analyze_downloads releases).total_assets =
        (releases.map (fun r => (releaseAssets r).length)).sum ∧
      (analyze_downloads releases).asset_details.length =
        (analyze_downloads releases).total_assets := by
  intro releases
  rw [analyze_downloads_eq]
  refine ⟨rfl, ?_⟩
  simp only [List.length_flatten, List.map_map]
  congr 1
  exact List.map_congr_left (fun r _ => by simp [Function.comp_def])

/-- C6: asset_details holds, per release in order, one row per asset, and
the release display name stamped on a row is the release's name field, else
its tag identifier, else the literal Unknown; a release with neither name
nor tag stamps Unknown on every one of its rows. -/
theorem release_display_name_resolution :
    (∀ releases : List Release,
      (analyze_downloads releases).asset_details =
        (releases.map (fun r => (releaseAssets r).map (assetDetailOf r))).flatten) ∧
    (∀ (r : Release) (n : String) (a : Asset), r.name = some n →
      (assetDetailOf r a).release_name = n) ∧
    (∀ (r : Release) (t : String) (a : Asset),
      r.name = none → r.tag_name = some t →
      (assetDetailOf r a).release_name = t) ∧
    (∀ (r : Release) (a : Asset), r.name = none → r.tag_name = none →
      (assetDetailOf r a).release_name = "Unknown") := by
  refine ⟨?_, ?_, ?_, ?_⟩
  · intro releases
    rw [analyze_downloads_eq]
  · intro r n a h
    simp [assetDetailOf, releaseDisplayName, h]
  · intro r t a h1 h2
    simp [assetDetailOf, releaseDisplayName, h1, h2]
  · intro r a h1 h2
    simp [assetDetailOf, releaseDisplayName, h1, h2]

/-- Each release counted by releases_with_downloads has a strictly positive
download sum, hence at least one asset, so the count is bounded by the total
asset count. -/
theorem countP_pos_le_assets_sum (releases : List Release) :
    releases.countP (fun r => decide (0 < releaseDownloads r)) ≤
      (releases.map (fun r => (releaseAssets r).length)).sum := by
  induction releases with
  | nil => simp
  | cons r rs ih =>
    rw [List.countP_cons, List.map_cons, List.sum_cons]
    by_cases h : 0 < releaseDownloads r
    · have hne : releaseAssets r ≠ [] := by
        intro hnil
        rw [releaseDownloads, hnil] at h
        simp at h
      have hlen : 1 ≤ (releaseAssets r).length := by
        cases hx : releaseAssets r with
        | nil => exact absurd hx hne
        | cons a as => simp
      simp only [h, decide_eq_true_eq, if_pos]
      omega
    · simp [h]
      omega

/-- C7: a repository whose fetched release sequence is empty is absent from
the per-repository result list and contributes nothing to any OverallStats
field; each repository with a non-empty sequence appends exactly one
(name, analysis) pair and counts once in repos_with_releases, and every
numeric total is the sum of that field over the kept analyses. -/
theorem scan_skips_empty_repos :
    ∀ (fetch : String → List Release) (repos : List String),
      (run_analysis_scan fetch repos).2 = keptRepos fetch repos ∧
      (run_analysis_scan fetch repos).1.repos_with_releases =
        (keptRepos fetch repos).length ∧
      (run_analysis_scan fetch repos).1.total_downloads =
        ((keptRepos fetch repos).map (fun p => p.2.total_downloads)).sum ∧
      (run_analysis_scan fetch repos).1.total_assets =
        ((keptRepos fetch repos).map (fun p => p.2.total_assets)).sum ∧
      (run_analysis_scan fetch repos).1.releases_with_downloads =
        ((keptRepos fetch repos).map
          (fun p => p.2.releases_with_downloads)).sum ∧
      (run_analysis_scan fetch repos).1.total_releases =
        ((keptRepos fetch repos).map (fun p => p.2.total_releases)).sum := by
  intro fetch repos
  unfold run_analysis_scan
  rw [scanStep_foldl]
  simp

/-- C8 counterexample to the claim as stated: no sequence of releases makes
analyze_downloads return total_assets strictly below
releases_with_downloads. -/
theorem no_input_gives_assets_below_counted_releases :
    ¬ ∃ releases : List Release,
        (analyze_downloads releases).total_assets <
          (analyze_downloads releases).releases_with_downloads := by
  rintro ⟨releases, hlt⟩
  have hle := countP_pos_le_assets_sum releases
  rw [analyze_downloads_eq] at hlt
  simp only at hlt
  omega

/-- C8 amended: the inequality IS guaranteed: for every sequence of
releases, releases_with_downloads is at most total_assets, because a
release only counts when its download sum is positive, which requires at
least one asset. -/
theorem releases_with_downloads_le_total_assets :
    ∀ releases : List Release,
      (analyze_downloads releases).releases_with_downloads ≤
        (analyze_downloads releases).total_assets := by
  intro releases
  rw [analyze_downloads_eq]
  exact countP_pos_le_assets_sum releases

/-- C9: before display the per-repository list is re-sorted by
total_downloads descending, and the sort is stable: the output is
descending, is a permutation of the scan list, and for every fixed
total_downloads value the equal-valued entries appear in their original
scan order. -/
theorem display_sort_desc_stable :
    ∀ (fetch : String → List Release) (repos : List String),
      (displayedRepos fetch repos).Pairwise
        (fun a b => b.2.total_downloads ≤ a.2.total_downloads) ∧
      List.Perm (displayedRepos fetch repos) (run_analysis_scan fetch repos).2 ∧
      (∀ d : Int,
        (displayedRepos fetch repos).filter
            (fun p => decide (p.2.total_downloads = d)) =
          (run_analysis_scan fetch repos).2.filter
            (fun p => decide (p.2.total_downloads = d))) := by
  intro fetch repos
  unfold displayedRepos
  exact ⟨sortByDownloadsDesc_sorted _, sortByDownloadsDesc_perm _,
    fun d => sortByDownloadsDesc_filter _ d⟩

/-- C10: the downloads column of asset_details accounts exactly for the
reported total: its sum equals total_downloads. -/
theorem asset_details_account_for_total :
    ∀ releases : List Release,
      ((analyze_downloads releases).asset_details.map
        (fun d => d.downloads)).sum =
        (analyze_downloads releases).total_downloads := by
  intro releases
  rw [analyze_downloads_eq]
  simp only [List.map_flatten, List.map_map, List.sum_flatten]
  congr 1
  exact List.map_congr_left
    (fun r _ => by
      simp [Function.comp_def, List.map_map, assetDetailOf, releaseDownloads])
